import Mathlib

/-!
Verification of the vy-english vocabulary trainer.

Strings of the TypeScript source are modelled as `List Char`.  JavaScript's
`toLowerCase()` is modelled by mapping `Char.toLower`, `trim()` by removing
leading and trailing whitespace, `startsWith` by the list-prefix relation,
`includes` by the list-infix relation.  The answer-checking handler
(`src/server/routes/answers.ts`, `router.post('/check')`), the Levenshtein
matrix (`levenshteinDistance` in the same file), the study-word selector
(`src/server/routes/words.ts`, `router.get('/study')`) and the word
create/update normalization are embedded below.
-/

namespace VyEnglish

/-- JS `s.toLowerCase()` on a list of characters. -/
def toLowerList (s : List Char) : List Char := s.map Char.toLower

/-- JS `s.trim()`: drop leading and trailing whitespace. -/
def trimList (s : List Char) : List Char :=
  ((s.dropWhile Char.isWhitespace).reverse.dropWhile Char.isWhitespace).reverse

/-- `answer.toLowerCase().trim()`, the normalization applied by the handler
(answers.ts line 37-38) and by the word create/update routes. -/
def normalize (s : List Char) : List Char := trimList (toLowerList s)

/-- Indicator of answers.ts line 167: `str1[i - 1] === str2[j - 1]` shifted so
that cell `(j+1, i+1)` compares `str1[i]` with `str2[j]`.  The default
character is irrelevant: the matrix only reads in-range indices. -/
def levInd (str1 str2 : List Char) (i j : ℕ) : ℕ :=
  if str1.getD i ' ' = str2.getD j ' ' then 0 else 1

/-- Row `j+1` of the Levenshtein matrix (answers.ts lines 165-174), built
left to right from the previous row `prev` (row `j`): the value at column
`i+1` is `min (left + 1) (min (up + 1) (diag + indicator))`, exactly the
`Math.min` of line 168-172. -/
def levRowFun (str1 str2 : List Char) (j : ℕ) (prev : ℕ → ℕ) : ℕ → ℕ
  | 0 => j + 1
  | i + 1 =>
    min (levRowFun str1 str2 j prev i + 1)
      (min (prev (i + 1) + 1) (prev i + levInd str1 str2 i j))

/-- `levCol str1 str2 j i` is entry `matrix[j][i]` of the dynamic-programming
matrix of `levenshteinDistance` (answers.ts lines 154-177): row 0 is
`matrix[0][i] = i` (line 158), column 0 is `matrix[j][0] = j` (line 162), and
every other entry follows the recurrence of lines 165-174. -/
def levCol (str1 str2 : List Char) : ℕ → ℕ → ℕ
  | 0 => fun i => i
  | j + 1 => levRowFun str1 str2 j (levCol str1 str2 j)

/-- `levenshteinDistance(str1, str2)` (answers.ts line 176 returns
`matrix[str2.length][str1.length]`). -/
def levenshteinDistance (str1 str2 : List Char) : ℕ :=
  levCol str1 str2 str2.length str1.length

/-- The prefix hint of answers.ts line 51, with the remaining-letter count
`correctAnswer.length - userAnswer.length` interpolated. -/
def prefixHint (remaining : ℕ) : List Char :=
  ("Правильно! Продолжайте... (".data) ++ (Nat.repr remaining).data ++
    (" букв осталось)".data)

/-- The substring hint of answers.ts line 56. -/
def substringHint : List Char := ("Частично правильно! Попробуйте еще раз").data

/-- The near-miss hint of answers.ts line 61. -/
def closeHint : List Char := ("Близко! Проверьте правописание").data

/-- The Answer row inserted by `prisma.answer.create` (answers.ts lines 66-72). -/
structure AnswerRecord where
  wordId : ℕ
  answer : List Char
  isCorrect : Bool
  deriving Repr, DecidableEq

/-- The `CheckAnswerResponse` payload built at answers.ts lines 74-79. -/
structure CheckAnswerResponse where
  isCorrect : Bool
  isPartial : Bool
  hint : Option (List Char)
  correctAnswer : List Char
  deriving Repr, DecidableEq

/-- The evaluation core of `router.post('/check')` (answers.ts lines 37-79),
after the word lookup: normalize both strings (37-38), exact check (41),
then the partial chain (47-63) guarded by `!isCorrect && userAnswer.length > 0`,
trying prefix (49), substring (54) and edit distance at most 2 (59) in order;
finally the created Answer row (66-72) and the response (74-79), whose hint
is present only when partial and whose `correctAnswer` is the raw stored
`word.english`. -/
def check (wordId : ℕ) (answer english : List Char) :
    AnswerRecord × CheckAnswerResponse :=
  let userAnswer := normalize answer
  let correctAnswer := normalize english
  let isCorrect : Bool := decide (userAnswer = correctAnswer)
  let ph : Bool × List Char :=
    if ¬ userAnswer = correctAnswer ∧ 0 < userAnswer.length then
      if userAnswer <+: correctAnswer then
        (true, prefixHint (correctAnswer.length - userAnswer.length))
      else if userAnswer <:+: correctAnswer then
        (true, substringHint)
      else if levenshteinDistance userAnswer correctAnswer ≤ 2 then
        (true, closeHint)
      else (false, [])
    else (false, [])
  (⟨wordId, userAnswer, isCorrect⟩,
    ⟨isCorrect, ph.1, if ph.1 = true then some ph.2 else none, english⟩)

/-- The fields of a stored Word that the study selector consults
(words.ts `router.get('/study')`). -/
structure Word where
  id : ℕ
  createdAt : ℕ
  isFavorite : Bool
  deriving Repr, DecidableEq

/-- A stored Answer row as seen by the selector's `answers: none isCorrect`
condition. -/
structure AnswerRow where
  wordId : ℕ
  isCorrect : Bool
  deriving Repr, DecidableEq

/-- The Prisma relation filter `answers: { some: { isCorrect: true } }`:
the word has at least one correct recorded answer ("mastered"). -/
def hasCorrectAnswer (ans : List AnswerRow) (w : Word) : Bool :=
  ans.any fun a => a.wordId == w.id && a.isCorrect

/-- The `whereClause` of words.ts lines 35-39: restrict to favorites exactly
when `favoriteOnly === 'true'`. -/
def matchesFilter (favoriteOnly : Bool) (w : Word) : Bool :=
  !favoriteOnly || w.isFavorite

/-- Of two words, the one created strictly earlier (the second breaks ties). -/
def olderOf (best x : Word) : Word :=
  if x.createdAt < best.createdAt then x else best

/-- `prisma.word.findFirst({ where: p, orderBy: { createdAt: 'asc' } })`:
the first word in creation order satisfying `p` — that is, a word with the
smallest `createdAt` among those satisfying `p` (earliest list position
breaking ties), or `none` when no word satisfies `p`. -/
def findFirstAsc (ws : List Word) (p : Word → Bool) : Option Word :=
  match ws.filter p with
  | [] => none
  | w :: rest => some (rest.foldl olderOf w)

/-- The study-word selection of words.ts lines 42-68: first query the oldest
word in the filtered set with no correct answer (lines 42-52); if none,
fall back to the oldest word of the filtered set (lines 57-60); report
not-found (`none`, the 404 of lines 61-66) only when that also fails. -/
def studyWord (ws : List Word) (ans : List AnswerRow) (favoriteOnly : Bool) :
    Option Word :=
  match findFirstAsc ws
      (fun w => matchesFilter favoriteOnly w && !hasCorrectAnswer ans w) with
  | some w => some w
  | none => findFirstAsc ws (matchesFilter favoriteOnly)

/-- `english.toLowerCase().trim()` stored by `router.post('/')`
(words.ts line 137). -/
def createWordEnglish (english : List Char) : List Char := normalize english

/-- The `english` column after `router.put('/:id')` (words.ts lines 155-172):
an absent field (`undefined`, filtered out at lines 161-163) leaves the old
value; a present field is normalized only when truthy (line 165-167), so an
empty string is stored as given. -/
def updateWordEnglish (old : List Char) (update : Option (List Char)) :
    List Char :=
  match update with
  | none => old
  | some e => if e = [] then e else normalize e

/-- Modelled from the spec: the later-revision study selector
(`selectNext(words, favoriteOnly, excludeId)`, spec §4.2).  The server route
of that revision is not under src/ — only its caller is (the second
`StudyCard.tsx` revision passes `currentWord.id` as the exclusion to
`wordsApi.getStudyWord`).  Following §4.2: filter to favorites when asked,
prefer the oldest unmastered word, skip `excludeId` among the unmastered
candidates, and fall back to the oldest word of the filtered set. -/
def selectNext (ws : List Word) (ans : List AnswerRow) (favoriteOnly : Bool)
    (excludeId : Option ℕ) : Option Word :=
  let notExcluded : Word → Bool := fun w =>
    match excludeId with
    | none => true
    | some e => !(w.id == e)
  match findFirstAsc ws (fun w =>
      (matchesFilter favoriteOnly w && !hasCorrectAnswer ans w) && notExcluded w) with
  | some w => some w
  | none => findFirstAsc ws (matchesFilter favoriteOnly)

/-- The response payload of the later-revision evaluator, declared under src/
at `src/client/src/types/index.ts` lines 41-49 (`isSynonym` field). -/
structure CheckAnswerResponseS where
  isCorrect : Bool
  isSynonym : Bool
  isPartial : Bool
  hint : Option (List Char)
  correctAnswer : List Char
  deriving Repr, DecidableEq

/-- Modelled from the spec: the later-revision answer evaluator with synonym
detection (spec §4.1).  The server code of that revision is not under src/ —
only its declaration (`CheckAnswerResponse.isSynonym`,
`src/client/src/types/index.ts`) and its consumer (the second
`StudyCard.tsx` revision) are.  Following §4.1's decision order: exact
first; then synonym — the normalized submission is a member of the target's
synonym set compared case-insensitively — reported as a distinct outcome and
not counted as correct (the recorded Answer keeps `isCorrect` from the exact
case only); then the unchanged prefix/substring/near-miss chain. -/
def checkS (wordId : ℕ) (answer english : List Char)
    (synonyms : List (List Char)) : AnswerRecord × CheckAnswerResponseS :=
  let userAnswer := normalize answer
  let correctAnswer := normalize english
  let isCorrect : Bool := decide (userAnswer = correctAnswer)
  let isSynonym : Bool :=
    !isCorrect && synonyms.any (fun s => toLowerList s == userAnswer)
  let ph : Bool × List Char :=
    if (¬ userAnswer = correctAnswer ∧ isSynonym = false) ∧ 0 < userAnswer.length then
      if userAnswer <+: correctAnswer then
        (true, prefixHint (correctAnswer.length - userAnswer.length))
      else if userAnswer <:+: correctAnswer then
        (true, substringHint)
      else if levenshteinDistance userAnswer correctAnswer ≤ 2 then
        (true, closeHint)
      else (false, [])
    else (false, [])
  (⟨wordId, userAnswer, isCorrect⟩,
    ⟨isCorrect, isSynonym, ph.1, if ph.1 = true then some ph.2 else none, english⟩)

/-- A left-to-right edit script turning the first string into the second:
`keep` copies a character for free, while substituting, inserting and
deleting a single character each cost 1.  `EditScript xs ys n` holds exactly
when some sequence of single-character insert/delete/substitute operations
of total cost `n` transforms `xs` into `ys`, so the Levenshtein edit
distance of the specification is the least such `n`. -/
inductive EditScript : List Char → List Char → ℕ → Prop
  | nil : EditScript [] [] 0
  | keep (c : Char) {xs ys : List Char} {n : ℕ} :
      EditScript xs ys n → EditScript (c :: xs) (c :: ys) n
  | subst (a b : Char) {xs ys : List Char} {n : ℕ} :
      EditScript xs ys n → EditScript (a :: xs) (b :: ys) (n + 1)
  | ins (b : Char) {xs ys : List Char} {n : ℕ} :
      EditScript xs ys n → EditScript xs (b :: ys) (n + 1)
  | del (a : Char) {xs ys : List Char} {n : ℕ} :
      EditScript xs ys n → EditScript (a :: xs) ys (n + 1)

/-- Textbook structural recursion for the Levenshtein distance, used as a
bridge between the matrix of the source and the minimal-edit-script
characterization. -/
def levRec : List Char → List Char → ℕ
  | [], ys => ys.length
  | x :: xs, [] => (x :: xs).length
  | x :: xs, y :: ys =>
    min (levRec xs (y :: ys) + 1)
      (min (levRec (x :: xs) ys + 1)
        (levRec xs ys + if x = y then 0 else 1))

/-! ### Selector lemmas -/

lemma foldl_olderOf_mem (l : List Word) (w : Word) :
    l.foldl olderOf w = w ∨ l.foldl olderOf w ∈ l := by
  induction l generalizing w with
  | nil => left; rfl
  | cons x l ih =>
    rw [List.foldl_cons]
    rcases ih (olderOf w x) with h | h
    · rw [h]; unfold olderOf; split
      · right; exact List.mem_cons_self _ _
      · left; rfl
    · right; exact List.mem_cons_of_mem _ h

lemma foldl_olderOf_le (l : List Word) (w : Word) :
    (l.foldl olderOf w).createdAt ≤ w.createdAt ∧
    ∀ v ∈ l, (l.foldl olderOf w).createdAt ≤ v.createdAt := by
  induction l generalizing w with
  | nil => exact ⟨le_refl _, by simp⟩
  | cons x l ih =>
    have h := ih (olderOf w x)
    have hle : (olderOf w x).createdAt ≤ w.createdAt ∧
        (olderOf w x).createdAt ≤ x.createdAt := by
      unfold olderOf; split <;> omega
    refine ⟨le_trans h.1 hle.1, ?_⟩
    intro v hv
    rw [List.foldl_cons]
    rcases List.mem_cons.mp hv with rfl | hv
    · exact le_trans h.1 hle.2
    · exact h.2 v hv

lemma findFirstAsc_eq_none_iff (ws : List Word) (p : Word → Bool) :
    findFirstAsc ws p = none ↔ ws.filter p = [] := by
  cases h : ws.filter p with
  | nil => simp [findFirstAsc, h]
  | cons w rest => simp [findFirstAsc, h]

lemma findFirstAsc_some (ws : List Word) (p : Word → Bool) (w : Word)
    (h : findFirstAsc ws p = some w) :
    w ∈ ws ∧ p w = true ∧
    ∀ v ∈ ws, p v = true → w.createdAt ≤ v.createdAt := by
  unfold findFirstAsc at h
  cases hf : ws.filter p with
  | nil => rw [hf] at h; cases h
  | cons x rest =>
    rw [hf] at h
    have hw : rest.foldl olderOf x = w := by
      injection h
    have hmem : w ∈ ws.filter p := by
      rw [hf]
      rcases foldl_olderOf_mem rest x with h1 | h1
      · rw [← hw, h1]; exact List.mem_cons_self _ _
      · exact List.mem_cons_of_mem _ (hw ▸ h1)
    have hmem' := List.mem_filter.mp hmem
    refine ⟨hmem'.1, hmem'.2, ?_⟩
    intro v hv hpv
    have hvf : v ∈ ws.filter p := List.mem_filter.mpr ⟨hv, hpv⟩
    rw [hf] at hvf
    have hle := foldl_olderOf_le rest x
    rcases List.mem_cons.mp hvf with rfl | hvf
    · exact hw ▸ hle.1
    · exact hw ▸ hle.2 v hvf

/-! ### Evaluator region lemmas -/

lemma check_exact (wid : ℕ) (a e : List Char) (h : normalize a = normalize e) :
    check wid a e = (⟨wid, normalize a, true⟩, ⟨true, false, none, e⟩) := by
  simp [check, h]

lemma check_prefix_case (wid : ℕ) (a e : List Char)
    (h1 : ¬ normalize a = normalize e) (h2 : normalize a ≠ [])
    (h3 : normalize a <+: normalize e) :
    check wid a e = (⟨wid, normalize a, false⟩,
      ⟨false, true,
        some (prefixHint ((normalize e).length - (normalize a).length)), e⟩) := by
  simp only [check]
  rw [if_pos ⟨h1, List.length_pos.mpr h2⟩, if_pos h3]
  simp [h1]

lemma check_substring_case (wid : ℕ) (a e : List Char)
    (h1 : ¬ normalize a = normalize e) (h2 : normalize a ≠ [])
    (h3 : ¬ normalize a <+: normalize e) (h4 : normalize a <:+: normalize e) :
    check wid a e = (⟨wid, normalize a, false⟩,
      ⟨false, true, some substringHint, e⟩) := by
  simp only [check]
  rw [if_pos ⟨h1, List.length_pos.mpr h2⟩, if_neg h3, if_pos h4]
  simp [h1]

lemma check_close_case (wid : ℕ) (a e : List Char)
    (h1 : ¬ normalize a = normalize e) (h2 : normalize a ≠ [])
    (h3 : ¬ normalize a <+: normalize e) (h4 : ¬ normalize a <:+: normalize e)
    (h5 : levenshteinDistance (normalize a) (normalize e) ≤ 2) :
    check wid a e = (⟨wid, normalize a, false⟩,
      ⟨false, true, some closeHint, e⟩) := by
  simp only [check]
  rw [if_pos ⟨h1, List.length_pos.mpr h2⟩, if_neg h3, if_neg h4, if_pos h5]
  simp [h1]

lemma check_incorrect_case (wid : ℕ) (a e : List Char)
    (h1 : ¬ normalize a = normalize e)
    (h : normalize a = [] ∨
      (¬ normalize a <+: normalize e ∧ ¬ normalize a <:+: normalize e ∧
        ¬ levenshteinDistance (normalize a) (normalize e) ≤ 2)) :
    check wid a e = (⟨wid, normalize a, false⟩, ⟨false, false, none, e⟩) := by
  simp only [check]
  rcases h with h0 | ⟨h3, h4, h5⟩
  · rw [if_neg (by simp [h0])]
    simp [h1]
  · have hp : 0 < (normalize a).length := by
      rcases Nat.eq_zero_or_pos (normalize a).length with hz | hp
      · exact absurd (List.eq_nil_of_length_eq_zero hz ▸ List.nil_prefix) h3
      · exact hp
    rw [if_pos ⟨h1, hp⟩, if_neg h3, if_neg h4, if_neg h5]
    simp [h1]

/-- C1: the evaluator applies its classification rules in the fixed order
exact match, prefix, substring (non-prefix), near-miss (Levenshtein distance
at most 2), otherwise incorrect — the first matching rule fixing the
classification and hint; the hint is omitted whenever the result is not
partial; and in every case the response carries the stored correct answer
text. -/
theorem check_rule_order (wid : ℕ) (a e : List Char) :
    ((check wid a e).2.correctAnswer = e) ∧
    ((check wid a e).2.isPartial = false → (check wid a e).2.hint = none) ∧
    (normalize a = normalize e →
      (check wid a e).2 = ⟨true, false, none, e⟩) ∧
    (¬ normalize a = normalize e → normalize a ≠ [] →
      normalize a <+: normalize e →
      (check wid a e).2 = ⟨false, true,
        some (prefixHint ((normalize e).length - (normalize a).length)), e⟩) ∧
    (¬ normalize a = normalize e → normalize a ≠ [] →
      ¬ normalize a <+: normalize e → normalize a <:+: normalize e →
      (check wid a e).2 = ⟨false, true, some substringHint, e⟩) ∧
    (¬ normalize a = normalize e → normalize a ≠ [] →
      ¬ normalize a <+: normalize e → ¬ normalize a <:+: normalize e →
      levenshteinDistance (normalize a) (normalize e) ≤ 2 →
      (check wid a e).2 = ⟨false, true, some closeHint, e⟩) ∧
    (¬ normalize a = normalize e →
      (normalize a = [] ∨ (¬ normalize a <+: normalize e ∧
        ¬ normalize a <:+: normalize e ∧
        ¬ levenshteinDistance (normalize a) (normalize e) ≤ 2)) →
      (check wid a e).2 = ⟨false, false, none, e⟩) := by
  by_cases h1 : normalize a = normalize e
  · rw [check_exact wid a e h1]
    simp_all
  · by_cases h2 : normalize a = []
    · rw [check_incorrect_case wid a e h1 (Or.inl h2)]
      have hnp : ¬ normalize a <+: normalize e ∨ True := Or.inr trivial
      simp_all
    · by_cases h3 : normalize a <+: normalize e
      · rw [check_prefix_case wid a e h1 h2 h3]
        simp_all
      · by_cases h4 : normalize a <:+: normalize e
        · rw [check_substring_case wid a e h1 h2 h3 h4]
          simp_all
        · by_cases h5 : levenshteinDistance (normalize a) (normalize e) ≤ 2
          · rw [check_close_case wid a e h1 h2 h3 h4 h5]
            simp_all
          · rw [check_incorrect_case wid a e h1 (Or.inr ⟨h3, h4, h5⟩)]
            simp_all

/-- C1 witness: on submission "appl" against "apple" the prefix rule fires
and the response is the prefix-partial one. -/
theorem check_rule_order_witness :
    (¬ normalize ("appl".data) = normalize ("apple".data) ∧
      normalize ("appl".data) ≠ [] ∧
      normalize ("appl".data) <+: normalize ("apple".data)) ∧
    (check 1 ("appl".data) ("apple".data)).2 = ⟨false, true,
      some (prefixHint ((normalize ("apple".data)).length -
        (normalize ("appl".data)).length)), "apple".data⟩ := by
  refine ⟨⟨by decide, by decide, by decide⟩, ?_⟩
  exact (check_rule_order 1 ("appl".data) ("apple".data)).2.2.2.1
    (by decide) (by decide) (by decide)

/-- C5: every evaluation records an Answer row carrying the submitted word id
and the normalized submission, whose correctness flag is true exactly when
the submission was classified Exact; partial and incorrect outcomes record
false. -/
theorem answer_record_correctness (wid : ℕ) (a e : List Char) :
    (check wid a e).1.wordId = wid ∧
    (check wid a e).1.answer = normalize a ∧
    ((check wid a e).1.isCorrect = true ↔ normalize a = normalize e) ∧
    ((check wid a e).2.isPartial = true → (check wid a e).1.isCorrect = false) ∧
    ((check wid a e).2.isCorrect = false → (check wid a e).1.isCorrect = false) := by
  have hrec : (check wid a e).1 =
      ⟨wid, normalize a, decide (normalize a = normalize e)⟩ := rfl
  by_cases h1 : normalize a = normalize e
  · rw [check_exact wid a e h1]
    simp [h1]
  · rw [hrec]
    simp [h1]

/-- C5 witness: on "appl" against "apple" the recorded Answer stores the
normalized submission and its correctness flag tracks the exact check. -/
theorem answer_record_correctness_witness :
    (check 1 ("appl".data) ("apple".data)).1.answer = normalize ("appl".data) ∧
    ((check 1 ("appl".data) ("apple".data)).1.isCorrect = true ↔
      normalize ("appl".data) = normalize ("apple".data)) :=
  ⟨(answer_record_correctness 1 ("appl".data) ("apple".data)).2.1,
    (answer_record_correctness 1 ("appl".data) ("apple".data)).2.2.1⟩

/-- C7: a submission whose normalized form equals the normalized target is
classified Exact; in particular every string checked against itself is
Exact, and a submission differing from the target only in letter case is
Exact. -/
theorem check_exact_on_normalized_equal :
    (∀ wid : ℕ, ∀ a e : List Char, normalize a = normalize e →
      (check wid a e).2.isCorrect = true) ∧
    (∀ wid : ℕ, ∀ s : List Char, (check wid s s).2.isCorrect = true) ∧
    (∀ wid : ℕ, ∀ a e : List Char, toLowerList a = toLowerList e →
      (check wid a e).2.isCorrect = true) := by
  have key : ∀ wid : ℕ, ∀ a e : List Char, normalize a = normalize e →
      (check wid a e).2.isCorrect = true := by
    intro wid a e h
    rw [check_exact wid a e h]
  exact ⟨key, fun wid s => key wid s s rfl,
    fun wid a e h => key wid a e (by unfold normalize; rw [h])⟩

/-- C7 witness: " APPLE " against "apple" is Exact after normalization. -/
theorem check_exact_on_normalized_equal_witness :
    normalize (" APPLE ".data) = normalize ("apple".data) ∧
    (check 1 (" APPLE ".data) ("apple".data)).2.isCorrect = true :=
  ⟨by decide,
    check_exact_on_normalized_equal.1 1 (" APPLE ".data) ("apple".data) (by decide)⟩

/-- C8 counterexample: a whitespace-only submission against a
whitespace-only stored answer normalizes to the empty string on both sides
and is classified Exact (`isCorrect = true`), not Incorrect as the claim
states for every target word. -/
theorem check_empty_input_counterexample :
    normalize (' ' :: []) = [] ∧
    (check 1 (' ' :: []) (' ' :: [])).2.isCorrect = true ∧
    (check 1 (' ' :: []) (' ' :: [])).2.isPartial = false := by
  decide

/-- C8 (amended): a submission that is empty after normalization is never
Partial and gets no hint — the prefix, substring and near-miss checks are
skipped — and it is classified Incorrect exactly when the normalized target
is non-empty (when the normalized target is also empty it is Exact). -/
theorem check_empty_input (wid : ℕ) (a e : List Char)
    (h : normalize a = []) :
    (check wid a e).2.isPartial = false ∧ (check wid a e).2.hint = none ∧
    ((check wid a e).2.isCorrect = true ↔ normalize e = []) := by
  by_cases he : normalize e = []
  · rw [check_exact wid a e (by rw [h, he])]
    simp [he]
  · rw [check_incorrect_case wid a e (by rw [h]; exact fun hh => he hh.symm)
      (Or.inl h)]
    simp [he]

/-- C8 witness: a whitespace-only submission against "apple" is Incorrect
and not Partial. -/
theorem check_empty_input_witness :
    normalize (' ' :: []) = [] ∧
    ((check 1 (' ' :: []) ("apple".data)).2.isPartial = false ∧
      (check 1 (' ' :: []) ("apple".data)).2.hint = none ∧
      ((check 1 (' ' :: []) ("apple".data)).2.isCorrect = true ↔
        normalize ("apple".data) = [])) :=
  ⟨by decide, check_empty_input 1 (' ' :: []) ("apple".data) (by decide)⟩

/-- C9: a non-empty normalized submission that is a proper prefix of the
normalized target is classified Partial with the prefix hint reporting
exactly the number of remaining letters. -/
theorem check_proper_prefix_hint (wid : ℕ) (a e : List Char)
    (h2 : normalize a ≠ []) (h3 : normalize a <+: normalize e)
    (h1 : normalize a ≠ normalize e) :
    (check wid a e).2.isPartial = true ∧
    (check wid a e).2.hint =
      some (prefixHint ((normalize e).length - (normalize a).length)) := by
  rw [check_prefix_case wid a e h1 h2 h3]
  exact ⟨rfl, rfl⟩

/-- C9 witness: "appl" against "apple" is Partial-prefix with a hint
mentioning exactly 1 remaining letter. -/
theorem check_proper_prefix_hint_witness :
    (normalize ("appl".data) ≠ [] ∧
      normalize ("appl".data) <+: normalize ("apple".data) ∧
      normalize ("appl".data) ≠ normalize ("apple".data)) ∧
    (check 1 ("appl".data) ("apple".data)).2.isPartial = true ∧
    (check 1 ("appl".data) ("apple".data)).2.hint = some (prefixHint 1) := by
  refine ⟨⟨by decide, by decide, by decide⟩, ?_, ?_⟩
  · exact (check_proper_prefix_hint 1 ("appl".data) ("apple".data)
      (by decide) (by decide) (by decide)).1
  · have h := (check_proper_prefix_hint 1 ("appl".data) ("apple".data)
      (by decide) (by decide) (by decide)).2
    rw [h]
    decide

/-- C3 (modelled from the spec): when the normalized submission differs from
the normalized target but is a member of the target's synonym set compared
case-insensitively, the later-revision evaluator reports the distinct
synonym outcome: `isSynonym` is set, the response is not correct and not
partial, and the recorded Answer does not count it as correct. -/
theorem checkS_synonym_outcome (wid : ℕ) (a e : List Char)
    (syns : List (List Char))
    (h1 : ¬ normalize a = normalize e)
    (h2 : ∃ s ∈ syns, toLowerList s = normalize a) :
    (checkS wid a e syns).2.isSynonym = true ∧
    (checkS wid a e syns).2.isCorrect = false ∧
    (checkS wid a e syns).2.isPartial = false ∧
    (checkS wid a e syns).1.isCorrect = false := by
  obtain ⟨s0, hs0, hseq⟩ := h2
  have hsyn : (!decide (normalize a = normalize e) &&
      syns.any (fun s => toLowerList s == normalize a)) = true := by
    simp only [Bool.and_eq_true, Bool.not_eq_true', decide_eq_false_iff_not,
      List.any_eq_true, beq_iff_eq]
    exact ⟨h1, s0, hs0, hseq⟩
  simp only [checkS]
  rw [if_neg (fun hc => by rw [hc.1.2] at hsyn; cases hsyn)]
  simp [hsyn, h1]
  exact ⟨s0, hs0, hseq⟩

/-- C3 witness: submitting "Pomme" against target "apple" with synonym set
containing "pomme" yields the synonym outcome. -/
theorem checkS_synonym_outcome_witness :
    (¬ normalize ("Pomme".data) = normalize ("apple".data) ∧
      ∃ s ∈ [("pomme".data)], toLowerList s = normalize ("Pomme".data)) ∧
    ((checkS 1 ("Pomme".data) ("apple".data) [("pomme".data)]).2.isSynonym = true ∧
      (checkS 1 ("Pomme".data) ("apple".data) [("pomme".data)]).2.isCorrect = false ∧
      (checkS 1 ("Pomme".data) ("apple".data) [("pomme".data)]).2.isPartial = false ∧
      (checkS 1 ("Pomme".data) ("apple".data) [("pomme".data)]).1.isCorrect = false) :=
  ⟨⟨by decide, ⟨("pomme".data), by decide, by decide⟩⟩,
    checkS_synonym_outcome 1 ("Pomme".data) ("apple".data) [("pomme".data)]
      (by decide) ⟨("pomme".data), by decide, by decide⟩⟩

/-- C4: for every word collection and favorite filter, the study selector
returns an oldest-by-creation-time word of the filtered set with no correct
answer; when every word of the filtered set has been answered correctly it
returns an oldest word of the filtered set instead of not-found; and it
returns not-found exactly when the filtered set is empty. -/
theorem study_selector_policy (ws : List Word) (ans : List AnswerRow) (fav : Bool) :
    (studyWord ws ans fav = none ↔ ws.filter (matchesFilter fav) = []) ∧
    (∀ w, studyWord ws ans fav = some w →
      w ∈ ws ∧ matchesFilter fav w = true ∧
      ((∃ v ∈ ws, matchesFilter fav v = true ∧ hasCorrectAnswer ans v = false) →
        hasCorrectAnswer ans w = false ∧
        ∀ v ∈ ws, matchesFilter fav v = true → hasCorrectAnswer ans v = false →
          w.createdAt ≤ v.createdAt) ∧
      ((∀ v ∈ ws, matchesFilter fav v = true → hasCorrectAnswer ans v = true) →
        ∀ v ∈ ws, matchesFilter fav v = true → w.createdAt ≤ v.createdAt)) := by
  unfold studyWord
  cases hq : findFirstAsc ws
      (fun w => matchesFilter fav w && !hasCorrectAnswer ans w) with
  | some u =>
    obtain ⟨hmem, hpred, hmin⟩ := findFirstAsc_some _ _ _ hq
    have hpred' : matchesFilter fav u = true ∧ hasCorrectAnswer ans u = false := by
      simpa [Bool.and_eq_true, Bool.not_eq_true'] using hpred
    constructor
    · constructor
      · intro h; cases h
      · intro h
        exfalso
        have hu : u ∈ ws.filter (matchesFilter fav) :=
          List.mem_filter.mpr ⟨hmem, hpred'.1⟩
        rw [h] at hu
        cases hu
    · intro w hw
      have hwu : u = w := by injection hw
      subst hwu
      refine ⟨hmem, hpred'.1, ?_, ?_⟩
      · intro _
        refine ⟨hpred'.2, ?_⟩
        intro v hv hm hc
        exact hmin v hv (by simp [hm, hc])
      · intro hall
        exact absurd (hall u hmem hpred'.1) (by simp [hpred'.2])
  | none =>
    have hempty : ws.filter
        (fun w => matchesFilter fav w && !hasCorrectAnswer ans w) = [] :=
      (findFirstAsc_eq_none_iff _ _).mp hq
    constructor
    · exact findFirstAsc_eq_none_iff _ _
    · intro w hw
      obtain ⟨hmem, hpf, hmin⟩ := findFirstAsc_some _ _ _ hw
      refine ⟨hmem, hpf, ?_, ?_⟩
      · rintro ⟨v, hv, hm, hc⟩
        exfalso
        have hvf : v ∈ ws.filter
            (fun w => matchesFilter fav w && !hasCorrectAnswer ans w) :=
          List.mem_filter.mpr ⟨hv, by simp [hm, hc]⟩
        rw [hempty] at hvf
        cases hvf
      · intro _ v hv hm
        exact hmin v hv hm

/-- C4 witness: over the empty collection the selector reports not-found,
and over the spec's three-word example it returns the oldest unmastered
word C (id 3). -/
theorem study_selector_policy_witness :
    (studyWord [] [] false = none ↔ ([] : List Word).filter (matchesFilter false) = []) ∧
    (studyWord [⟨1, 2, false⟩, ⟨2, 3, false⟩, ⟨3, 1, false⟩] [⟨2, true⟩] false =
      some ⟨3, 1, false⟩) := by
  refine ⟨(study_selector_policy [] [] false).1, by decide⟩

/-- C2 (modelled from the spec): when the excluded id is among the unmastered
candidates and another unmastered candidate exists, the later-revision
selector returns an oldest unmastered word different from the excluded id
rather than re-serving the just-answered word. -/
theorem selectNext_skips_excluded (ws : List Word) (ans : List AnswerRow)
    (fav : Bool) (eId : ℕ)
    (_hexc : ∃ w ∈ ws, (matchesFilter fav w = true ∧ hasCorrectAnswer ans w = false) ∧
      w.id = eId)
    (hnext : ∃ w ∈ ws, (matchesFilter fav w = true ∧ hasCorrectAnswer ans w = false) ∧
      w.id ≠ eId) :
    ∃ w, selectNext ws ans fav (some eId) = some w ∧
      w ∈ ws ∧ matchesFilter fav w = true ∧ hasCorrectAnswer ans w = false ∧
      w.id ≠ eId ∧
      ∀ v ∈ ws, matchesFilter fav v = true → hasCorrectAnswer ans v = false →
        v.id ≠ eId → w.createdAt ≤ v.createdAt := by
  classical
  obtain ⟨v0, hv0, ⟨hm0, hc0⟩, hne0⟩ := hnext
  have hv0q : ((matchesFilter fav v0 && !hasCorrectAnswer ans v0) && !(v0.id == eId))
      = true := by
    simp [hm0, hc0, hne0]
  cases hfq : findFirstAsc ws
      (fun w => (matchesFilter fav w && !hasCorrectAnswer ans w) && !(w.id == eId)) with
  | none =>
    exfalso
    have hempty := (findFirstAsc_eq_none_iff _ _).mp hfq
    have hvf : v0 ∈ ws.filter
        (fun w => (matchesFilter fav w && !hasCorrectAnswer ans w) && !(w.id == eId)) :=
      List.mem_filter.mpr ⟨hv0, hv0q⟩
    rw [hempty] at hvf
    cases hvf
  | some u =>
    obtain ⟨hmem, hpred, hmin⟩ := findFirstAsc_some _ _ _ hfq
    have hpred' : (matchesFilter fav u = true ∧ hasCorrectAnswer ans u = false) ∧
        u.id ≠ eId := by
      simpa [Bool.and_eq_true, Bool.not_eq_true'] using hpred
    refine ⟨u, ?_, hmem, hpred'.1.1, hpred'.1.2, hpred'.2, ?_⟩
    · have hdef : selectNext ws ans fav (some eId) =
          match findFirstAsc ws (fun w =>
            (matchesFilter fav w && !hasCorrectAnswer ans w) && !(w.id == eId)) with
          | some w => some w
          | none => findFirstAsc ws (matchesFilter fav) := rfl
      rw [hdef, hfq]
    · intro v hv hm hc hne
      exact hmin v hv (by simp [hm, hc, hne])

/-- C2 witness: on the spec's example — A(id 1, unmastered, createdAt 2),
B(id 2, mastered), C(id 3, unmastered, createdAt 1) — excluding id 3 makes
the selector return A instead of the otherwise-oldest C. -/
theorem selectNext_skips_excluded_witness :
    selectNext [⟨1, 2, false⟩, ⟨2, 3, false⟩, ⟨3, 1, false⟩] [⟨2, true⟩] false
        (some 3) = some ⟨1, 2, false⟩ ∧
    (∃ w, selectNext [⟨1, 2, false⟩, ⟨2, 3, false⟩, ⟨3, 1, false⟩] [⟨2, true⟩]
        false (some 3) = some w ∧ w.id ≠ 3) := by
  refine ⟨by decide, ?_⟩
  obtain ⟨w, hsel, -, -, -, hne, -⟩ :=
    selectNext_skips_excluded [⟨1, 2, false⟩, ⟨2, 3, false⟩, ⟨3, 1, false⟩]
      [⟨2, true⟩] false 3
      ⟨⟨3, 1, false⟩, by decide, by decide⟩
      ⟨⟨1, 2, false⟩, by decide, by decide⟩
  exact ⟨w, hsel, hne⟩

/-! ### Normalization is idempotent (for C10) -/

lemma char_ofNat_toNat_of_lt {n : ℕ} (h : n < 55296) :
    (Char.ofNat n).toNat = n := by
  rw [Char.ofNat, dif_pos (Or.inl h)]
  rfl

lemma toLower_toLower (c : Char) : c.toLower.toLower = c.toLower := by
  unfold Char.toLower
  by_cases h : c.toNat ≥ 65 ∧ c.toNat ≤ 90
  · rw [if_pos h]
    have hv : (Char.ofNat (c.toNat + 32)).toNat = c.toNat + 32 :=
      char_ofNat_toNat_of_lt (by omega)
    rw [if_neg (by rw [hv]; omega)]
  · rw [if_neg h, if_neg h]

lemma toNat_le_of_isWhitespace (c : Char) (h : c.isWhitespace = true) :
    c.toNat ≤ 32 := by
  unfold Char.isWhitespace at h
  simp only [Bool.or_eq_true, decide_eq_true_eq] at h
  rcases h with ((h | h) | h) | h <;> subst h <;> decide

lemma isWhitespace_toLower (c : Char) :
    c.toLower.isWhitespace = c.isWhitespace := by
  unfold Char.toLower
  by_cases h : c.toNat ≥ 65 ∧ c.toNat ≤ 90
  · rw [if_pos h]
    have hv : (Char.ofNat (c.toNat + 32)).toNat = c.toNat + 32 :=
      char_ofNat_toNat_of_lt (by omega)
    have h1 : (Char.ofNat (c.toNat + 32)).isWhitespace = false := by
      cases hw : (Char.ofNat (c.toNat + 32)).isWhitespace
      · rfl
      · have hle := toNat_le_of_isWhitespace _ hw
        rw [hv] at hle
        omega
    have h2 : c.isWhitespace = false := by
      cases hw : c.isWhitespace
      · rfl
      · have hle := toNat_le_of_isWhitespace _ hw
        omega
    rw [h1, h2]
  · rw [if_neg h]

lemma ws_comp_toLower :
    (Char.isWhitespace ∘ Char.toLower) = Char.isWhitespace :=
  funext isWhitespace_toLower

lemma toLowerList_idem (s : List Char) :
    toLowerList (toLowerList s) = toLowerList s := by
  unfold toLowerList
  rw [List.map_map]
  congr 1
  funext c
  exact toLower_toLower c

lemma trimList_toLowerList (s : List Char) :
    trimList (toLowerList s) = toLowerList (trimList s) := by
  unfold trimList toLowerList
  rw [List.dropWhile_map, ws_comp_toLower, ← List.map_reverse,
    List.dropWhile_map, ws_comp_toLower, ← List.map_reverse]

lemma dropWhile_idem (p : Char → Bool) (l : List Char) :
    (l.dropWhile p).dropWhile p = l.dropWhile p := by
  induction l with
  | nil => rfl
  | cons x l ih =>
    by_cases h : p x
    · rw [List.dropWhile_cons_of_pos h]
      exact ih
    · rw [List.dropWhile_cons_of_neg h, List.dropWhile_cons_of_neg h]

lemma dropWhile_head_false (p : Char → Bool) (l : List Char) (x : Char)
    (xs : List Char) (h : l.dropWhile p = x :: xs) : p x = false := by
  induction l with
  | nil => cases h
  | cons a l ih =>
    by_cases hp : p a
    · rw [List.dropWhile_cons_of_pos hp] at h
      exact ih h
    · rw [List.dropWhile_cons_of_neg hp] at h
      injection h with h1 _
      subst h1
      exact Bool.eq_false_iff.mpr hp

lemma trimList_idem (l : List Char) : trimList (trimList l) = trimList l := by
  unfold trimList
  cases ha : l.dropWhile Char.isWhitespace with
  | nil => simp
  | cons x xs =>
    have hx : Char.isWhitespace x = false :=
      dropWhile_head_false Char.isWhitespace l x xs ha
    obtain ⟨t, ht⟩ : ∃ t,
        (((x :: xs).reverse.dropWhile Char.isWhitespace)).reverse = x :: t := by
      rw [List.reverse_cons, List.dropWhile_append]
      by_cases hE : (xs.reverse.dropWhile Char.isWhitespace).isEmpty
      · rw [if_pos hE]
        rw [List.dropWhile_cons_of_neg (by simp [hx])]
        exact ⟨[], rfl⟩
      · rw [if_neg hE, List.reverse_append]
        exact ⟨_, rfl⟩
    have h1 : (((x :: xs).reverse.dropWhile Char.isWhitespace)).reverse.dropWhile
        Char.isWhitespace =
        (((x :: xs).reverse.dropWhile Char.isWhitespace)).reverse := by
      rw [ht, List.dropWhile_cons_of_neg (by simp [hx])]
    have h2 : (((x :: xs).reverse.dropWhile Char.isWhitespace)).reverse.reverse.dropWhile
        Char.isWhitespace =
        (((x :: xs).reverse.dropWhile Char.isWhitespace)).reverse.reverse := by
      rw [List.reverse_reverse]
      exact dropWhile_idem _ _
    rw [h1, h2, List.reverse_reverse]

lemma normalize_idem (s : List Char) : normalize (normalize s) = normalize s := by
  unfold normalize
  rw [← trimList_toLowerList (toLowerList s), toLowerList_idem,
    trimList_toLowerList, ← trimList_toLowerList, trimList_idem]

/-- C10: every Word stored through the create or update operations has its
english field in normalized form — normalizing it again changes nothing —
and the update operation preserves this invariant whether the field is
absent, empty, or replaced. -/
theorem stored_english_normalized :
    (∀ e : List Char, normalize (createWordEnglish e) = createWordEnglish e) ∧
    (∀ old : List Char, ∀ u : Option (List Char), normalize old = old →
      normalize (updateWordEnglish old u) = updateWordEnglish old u) := by
  constructor
  · intro e
    exact normalize_idem e
  · intro old u h
    cases u with
    | none => exact h
    | some e =>
      have hdef : updateWordEnglish old (some e) =
          if e = [] then e else normalize e := rfl
      rw [hdef]
      by_cases he : e = []
      · rw [if_pos he, he]
        rfl
      · rw [if_neg he]
        exact normalize_idem e

/-- C10 witness: a create of " NEW Word " stores a normalized value, and an
update of a normalized row keeps it normalized. -/
theorem stored_english_normalized_witness :
    normalize (createWordEnglish (" NEW Word ".data)) =
      createWordEnglish (" NEW Word ".data) ∧
    (normalize ("apple".data) = "apple".data ∧
      normalize (updateWordEnglish ("apple".data) (some (" NEW Word ".data))) =
        updateWordEnglish ("apple".data) (some (" NEW Word ".data))) :=
  ⟨stored_english_normalized.1 (" NEW Word ".data),
    ⟨by decide, stored_english_normalized.2 ("apple".data)
      (some (" NEW Word ".data)) (by decide)⟩⟩

/-! ### The Levenshtein matrix computes the minimal edit cost (for C6) -/

lemma levCol_zero (s1 s2 : List Char) (i : ℕ) : levCol s1 s2 0 i = i := rfl

lemma levCol_succ_zero (s1 s2 : List Char) (j : ℕ) :
    levCol s1 s2 (j + 1) 0 = j + 1 := rfl

lemma levCol_succ_succ (s1 s2 : List Char) (j i : ℕ) :
    levCol s1 s2 (j + 1) (i + 1) =
      min (levCol s1 s2 (j + 1) i + 1)
        (min (levCol s1 s2 j (i + 1) + 1)
          (levCol s1 s2 j i + levInd s1 s2 i j)) := rfl

lemma levRec_nil_left (ys : List Char) : levRec [] ys = ys.length := by
  simp [levRec]

lemma levRec_nil_right (xs : List Char) : levRec xs [] = xs.length := by
  cases xs <;> simp [levRec]

lemma levRec_cons_cons (x y : Char) (xs ys : List Char) :
    levRec (x :: xs) (y :: ys) =
      min (levRec xs (y :: ys) + 1)
        (min (levRec (x :: xs) ys + 1)
          (levRec xs ys + if x = y then 0 else 1)) := by
  simp [levRec]

lemma reverse_take_succ (s : List Char) (i : ℕ) (h : i < s.length) :
    (s.take (i + 1)).reverse = s[i] :: (s.take i).reverse := by
  rw [List.take_succ, List.getElem?_eq_getElem h]
  simp

lemma levInd_eq (s1 s2 : List Char) (i j : ℕ) (hi : i < s1.length)
    (hj : j < s2.length) :
    levInd s1 s2 i j = if s1[i] = s2[j] then 0 else 1 := by
  unfold levInd
  rw [List.getD_eq_getElem?_getD, List.getElem?_eq_getElem hi,
    List.getD_eq_getElem?_getD, List.getElem?_eq_getElem hj]
  simp

theorem levCol_eq_levRec (s1 s2 : List Char) :
    ∀ j i, i ≤ s1.length → j ≤ s2.length →
      levCol s1 s2 j i = levRec ((s1.take i).reverse) ((s2.take j).reverse) := by
  intro j
  induction j with
  | zero =>
    intro i hi _
    rw [levCol_zero, List.take_zero, List.reverse_nil, levRec_nil_right]
    simp [List.length_take, Nat.min_eq_left hi]
  | succ j ihj =>
    intro i
    induction i with
    | zero =>
      intro _ hj
      rw [levCol_succ_zero, List.take_zero, List.reverse_nil, levRec_nil_left]
      simp [List.length_take, Nat.min_eq_left hj]
    | succ i ihi =>
      intro hi hj
      have hi' : i < s1.length := hi
      have hj' : j < s2.length := hj
      have hii : i ≤ s1.length := le_of_lt hi'
      rw [levCol_succ_succ, ihi hii hj, ihj (i + 1) hi (le_of_lt hj'),
        ihj i hii (le_of_lt hj'), levInd_eq s1 s2 i j hi' hj',
        reverse_take_succ s1 i hi', reverse_take_succ s2 j hj',
        levRec_cons_cons]

theorem levenshteinDistance_eq_levRec (s1 s2 : List Char) :
    levenshteinDistance s1 s2 = levRec s1.reverse s2.reverse := by
  unfold levenshteinDistance
  rw [levCol_eq_levRec s1 s2 s2.length s1.length (le_refl _) (le_refl _),
    List.take_length, List.take_length]

lemma editScript_nil_left (ys : List Char) : EditScript [] ys ys.length := by
  induction ys with
  | nil => exact .nil
  | cons y ys ih => exact .ins y ih

lemma editScript_nil_right (xs : List Char) : EditScript xs [] xs.length := by
  induction xs with
  | nil => exact .nil
  | cons x xs ih => exact .del x ih

lemma editScript_levRec : ∀ xs ys : List Char, EditScript xs ys (levRec xs ys) := by
  intro xs
  induction xs with
  | nil =>
    intro ys
    rw [levRec_nil_left]
    exact editScript_nil_left ys
  | cons x xs ihx =>
    intro ys
    induction ys with
    | nil =>
      rw [levRec_nil_right]
      exact editScript_nil_right _
    | cons y ys ihy =>
      rw [levRec_cons_cons]
      have h : min (levRec xs (y :: ys) + 1)
            (min (levRec (x :: xs) ys + 1)
              (levRec xs ys + if x = y then 0 else 1)) =
            levRec xs (y :: ys) + 1 ∨
          min (levRec xs (y :: ys) + 1)
            (min (levRec (x :: xs) ys + 1)
              (levRec xs ys + if x = y then 0 else 1)) =
            levRec (x :: xs) ys + 1 ∨
          min (levRec xs (y :: ys) + 1)
            (min (levRec (x :: xs) ys + 1)
              (levRec xs ys + if x = y then 0 else 1)) =
            levRec xs ys + if x = y then 0 else 1 := by
        omega
      rcases h with h | h | h <;> rw [h]
      · exact .del x (ihx (y :: ys))
      · exact .ins y ihy
      · by_cases hxy : x = y
        · subst hxy
          rw [if_pos rfl]
          simpa using EditScript.keep x (ihx ys)
        · rw [if_neg hxy]
          exact .subst x y (ihx ys)

lemma levRec_le_editScript {xs ys : List Char} {n : ℕ}
    (h : EditScript xs ys n) : levRec xs ys ≤ n := by
  induction h with
  | nil =>
    rw [levRec_nil_left]
    exact le_refl _
  | keep c h ih =>
    rw [levRec_cons_cons, if_pos rfl]
    omega
  | subst a b h ih =>
    rw [levRec_cons_cons]
    have hle : (if a = b then 0 else 1) ≤ 1 := by split <;> omega
    omega
  | ins b h ih =>
    rename_i xs' ys' n'
    cases xs' with
    | nil =>
      rw [levRec_nil_left] at ih ⊢
      simp only [List.length_cons]
      omega
    | cons x xs'' =>
      rw [levRec_cons_cons]
      omega
  | del a h ih =>
    rename_i xs' ys' n'
    cases ys' with
    | nil =>
      rw [levRec_nil_right] at ih ⊢
      simp only [List.length_cons]
      omega
    | cons y ys'' =>
      rw [levRec_cons_cons]
      omega

lemma editScript_append {xs ys us vs : List Char} {n m : ℕ}
    (h1 : EditScript xs ys n) (h2 : EditScript us vs m) :
    EditScript (xs ++ us) (ys ++ vs) (n + m) := by
  induction h1 with
  | nil => simpa using h2
  | keep c h ih => exact .keep c ih
  | subst a b h ih =>
    rw [Nat.add_right_comm]
    exact .subst a b ih
  | ins b h ih =>
    rw [Nat.add_right_comm]
    exact .ins b ih
  | del a h ih =>
    rw [Nat.add_right_comm]
    exact .del a ih

lemma editScript_reverse {xs ys : List Char} {n : ℕ}
    (h : EditScript xs ys n) : EditScript xs.reverse ys.reverse n := by
  induction h with
  | nil => exact .nil
  | keep c h ih =>
    rw [List.reverse_cons, List.reverse_cons]
    simpa using editScript_append ih (EditScript.keep c .nil)
  | subst a b h ih =>
    rw [List.reverse_cons, List.reverse_cons]
    simpa using editScript_append ih (EditScript.subst a b .nil)
  | ins b h ih =>
    rw [List.reverse_cons]
    simpa using editScript_append ih (EditScript.ins b .nil)
  | del a h ih =>
    rw [List.reverse_cons]
    simpa using editScript_append ih (EditScript.del a .nil)

/-- C6: `levenshteinDistance` computes exactly the Levenshtein edit
distance — the least total cost of an edit script of single-character
insert, delete and substitute operations (cost 1 each) transforming the
first string into the second, over the full strings. -/
theorem levenshteinDistance_minimal (s1 s2 : List Char) :
    IsLeast {n | EditScript s1 s2 n} (levenshteinDistance s1 s2) := by
  rw [levenshteinDistance_eq_levRec]
  constructor
  · have h2 := editScript_reverse (editScript_levRec s1.reverse s2.reverse)
    simpa using h2
  · intro n hn
    exact levRec_le_editScript (editScript_reverse hn)

/-- C6 witness: the distance between "aplpe" and "apple" evaluates to 2 and
is achieved by an edit script. -/
theorem levenshteinDistance_minimal_witness :
    levenshteinDistance ("aplpe".data) ("apple".data) = 2 ∧
    EditScript ("aplpe".data) ("apple".data)
      (levenshteinDistance ("aplpe".data) ("apple".data)) :=
  ⟨by decide, (levenshteinDistance_minimal ("aplpe".data) ("apple".data)).1⟩

end VyEnglish
